import Mathlib

/-!
Verification development for the task-management core: the composite task
tree (`Task` / `TaskGroup`), the command variants, the `CommandManager`
undo/redo engine, and the `TaskStore` statistics.  Every definition is a
shallow embedding of the corresponding TypeScript source; JavaScript `Date`
values are modelled by their ISO strings, JavaScript numbers occurring in
the statistics by exact rationals, and in-place mutation by explicit state
passing.
-/

set_option maxHeartbeats 1000000

namespace TodoPatterns

/-! ## Composite tree: `Task` (leaf) and `TaskGroup` (node with children)

`TaskC.task id title completed` embeds the `Task` class (its `children`
field is `undefined`), `TaskC.group id title completed children` embeds
`TaskGroup` (its `children` field is always an array, possibly empty).
The JS truthiness test `if (child.children)` is the `isGroup` test here:
`undefined` is falsy while any array, `[]` included, is truthy. -/

inductive TaskC where
  | task (id title : String) (completed : Bool)
  | group (id title : String) (completed : Bool) (children : List TaskC)
deriving Repr

mutual

def TaskC.beq : TaskC → TaskC → Bool
  | .task i t b, .task i' t' b' => i == i' && t == t' && b == b'
  | .group i t b cs, .group i' t' b' cs' =>
    i == i' && t == t' && b == b' && beqListT cs cs'
  | _, _ => false

def beqListT : List TaskC → List TaskC → Bool
  | [], [] => true
  | c :: cs, d :: ds => TaskC.beq c d && beqListT cs ds
  | _, _ => false

end

mutual

theorem TaskC.beq_iff : ∀ (a b : TaskC), (TaskC.beq a b = true) ↔ a = b
  | .task _ _ _, .task _ _ _ => by simp [TaskC.beq, and_assoc]
  | .task _ _ _, .group _ _ _ _ => by simp [TaskC.beq]
  | .group _ _ _ _, .task _ _ _ => by simp [TaskC.beq]
  | .group _ _ _ cs, .group _ _ _ cs' => by
    simp [TaskC.beq, beqListT_iff cs cs', and_assoc]

theorem beqListT_iff : ∀ (l1 l2 : List TaskC), (beqListT l1 l2 = true) ↔ l1 = l2
  | [], [] => by simp [beqListT]
  | [], _ :: _ => by simp [beqListT]
  | _ :: _, [] => by simp [beqListT]
  | c :: cs, d :: ds => by
    simp [beqListT, TaskC.beq_iff c d, beqListT_iff cs ds]

end

instance : DecidableEq TaskC := fun a b => decidable_of_iff _ (TaskC.beq_iff a b)

def TaskC.id : TaskC → String
  | .task i _ _ => i
  | .group i _ _ _ => i

def TaskC.title : TaskC → String
  | .task _ t _ => t
  | .group _ t _ _ => t

def TaskC.completed : TaskC → Bool
  | .task _ _ b => b
  | .group _ _ b _ => b

def TaskC.isGroup : TaskC → Bool
  | .task .. => false
  | .group .. => true

def TaskC.childrenL : TaskC → List TaskC
  | .task .. => []
  | .group _ _ _ cs => cs

mutual

/-- `Task.getTaskCount` returns 1; `TaskGroup.getTaskCount` returns
1 plus the sum over children (the `reduce` in the source). -/
def TaskC.getTaskCount : TaskC → Nat
  | .task .. => 1
  | .group _ _ _ cs => 1 + getTaskCountList cs

def getTaskCountList : List TaskC → Nat
  | [] => 0
  | c :: cs => TaskC.getTaskCount c + getTaskCountList cs

end

mutual

/-- `getCompletedCount`: 1 if self completed else 0, plus sum over children. -/
def TaskC.getCompletedCount : TaskC → Nat
  | .task _ _ b => if b then 1 else 0
  | .group _ _ b cs => (if b then 1 else 0) + getCompletedCountList cs

def getCompletedCountList : List TaskC → Nat
  | [] => 0
  | c :: cs => TaskC.getCompletedCount c + getCompletedCountList cs

end

/-- `TaskGroup.addChild`: push onto the end of `children`.  (Never called
on a leaf in the source; the leaf case is the identity.) -/
def TaskC.addChild (t x : TaskC) : TaskC :=
  match t with
  | .task i ti b => .task i ti b
  | .group i ti b cs => .group i ti b (cs ++ [x])

mutual

/-- `TaskGroup.removeChild(taskId)`: `findIndex` over the direct children;
if found, splice that child out and return it; otherwise recurse into each
child that has a `children` array (i.e. each group child), in order,
returning the first removal that succeeds.  The pair is
(removed node or null, group after the mutation). -/
def TaskC.removeChild : TaskC → String → Option TaskC × TaskC
  | .task i ti b, _ => (none, .task i ti b)
  | .group i ti b cs, tid =>
    match cs.findIdx? (fun c => TaskC.id c = tid) with
    | some idx => (cs.get? idx, .group i ti b (cs.eraseIdx idx))
    | none =>
      let p := removeFromList cs tid
      (p.1, .group i ti b p.2)

def removeFromList : List TaskC → String → Option TaskC × List TaskC
  | [], _ => (none, [])
  | c :: cs, tid =>
    if TaskC.isGroup c then
      let q := TaskC.removeChild c tid
      match q.1 with
      | some r => (some r, q.2 :: cs)
      | none =>
        let p := removeFromList cs tid
        (p.1, c :: p.2)
    else
      let p := removeFromList cs tid
      (p.1, c :: p.2)

end

mutual

/-- `TaskGroup.findTask(taskId)`: match the group itself first, then for
each child in order: match the child's id, else recurse into the child if
it is a group; return the first match. -/
def TaskC.findTask : TaskC → String → Option TaskC
  | .task .., _ => none
  | .group i ti b cs, tid =>
    if i = tid then some (.group i ti b cs) else findTaskList cs tid

def findTaskList : List TaskC → String → Option TaskC
  | [], _ => none
  | c :: cs, tid =>
    if TaskC.id c = tid then some c
    else if TaskC.isGroup c then
      match TaskC.findTask c tid with
      | some r => some r
      | none => findTaskList cs tid
    else findTaskList cs tid

end

mutual

/-- All node values of the tree, root first, depth first. -/
def TaskC.allNodes : TaskC → List TaskC
  | .task i ti b => [.task i ti b]
  | .group i ti b cs => .group i ti b cs :: allNodesList cs

def allNodesList : List TaskC → List TaskC
  | [] => []
  | c :: cs => TaskC.allNodes c ++ allNodesList cs

end

/-- All ids occurring in the tree (one occurrence per node). -/
def TaskC.allIds (t : TaskC) : List String :=
  t.allNodes.map TaskC.id

def allIdsList (cs : List TaskC) : List String :=
  (allNodesList cs).map TaskC.id

/-! ## Serialization: `toJSON` / `TaskGroup.fromJSON` / `Task.fromJSON`

A portable record is `{id, title, completed, children?}`; `Task.toJSON`
emits no `children` key (`none`), `TaskGroup.toJSON` always emits one
(`some`, possibly the empty array). -/

inductive PRec where
  | mk (id title : String) (completed : Bool) (children : Option (List PRec))
deriving Repr

def PRec.children : PRec → Option (List PRec)
  | .mk _ _ _ cs => cs

mutual

def TaskC.toJSON : TaskC → PRec
  | .task i ti b => .mk i ti b none
  | .group i ti b cs => .mk i ti b (some (toJSONList cs))

def toJSONList : List TaskC → List PRec
  | [] => []
  | c :: cs => TaskC.toJSON c :: toJSONList cs

end

mutual

/-- `TaskGroup.fromJSON`: always builds a `TaskGroup`; a missing
`children` key yields an empty group; each child record is rebuilt by
`childFromJSON`. -/
def fromJSON : PRec → TaskC
  | .mk i ti b none => .group i ti b []
  | .mk i ti b (some js) => .group i ti b (fromJSONList js)

def fromJSONList : List PRec → List TaskC
  | [] => []
  | j :: js => childFromJSON j :: fromJSONList js

/-- The child branch of `TaskGroup.fromJSON`: a record whose `children`
array is present and non-empty goes through `TaskGroup.fromJSON`
(inlined here for termination), every other record through
`Task.fromJSON`, which ignores any `children` field. -/
def childFromJSON : PRec → TaskC
  | .mk i ti b (some (x :: xs)) => .group i ti b (fromJSONList (x :: xs))
  | .mk i ti b _ => .task i ti b

end

/-- `childFromJSON` agrees with the source's
`if (children && children.length > 0) TaskGroup.fromJSON else Task.fromJSON`. -/
theorem childFromJSON_eq_fromJSON (i ti : String) (b : Bool) (l : List PRec)
    (hl : l ≠ []) : childFromJSON (.mk i ti b (some l)) = fromJSON (.mk i ti b (some l)) := by
  match l, hl with
  | x :: xs, _ => rfl

mutual

/-- Every group strictly inside the tree has a non-empty child list. -/
def goodSub : TaskC → Bool
  | .task .. => true
  | .group _ _ _ [] => false
  | .group _ _ _ (c :: cs) => goodList (c :: cs)

def goodList : List TaskC → Bool
  | [] => true
  | c :: cs => goodSub c && goodList cs

end

/-! ## Command variants as tree transformations

Each command captures its constructor arguments; `execute`/`undo` are the
structural mutations of the source, with the mutated object passed
explicitly.  The optional `onExecute`/`onUndo` callbacks touch neither the
tree nor the command state and are omitted. -/

/-- `CreateTaskCommand.execute`: `parent.addChild(task)`. -/
def createExecute (task parent : TaskC) : TaskC :=
  parent.addChild task

/-- `CreateTaskCommand.undo`: `parent.removeChild(task.id)`. -/
def createUndo (task parent : TaskC) : TaskC :=
  (parent.removeChild task.id).2

/-- `DeleteTaskCommand.execute`: capture
`deletedIndex = parent.children.findIndex(c => c.id === taskId)` (−1 when
absent) and `deletedTask = parent.removeChild(taskId)`; returns
`((deletedIndex, deletedTask), parent after the call)`. -/
def deleteExecute (taskId : String) (parent : TaskC) : (Int × Option TaskC) × TaskC :=
  let idx : Int :=
    match parent.childrenL.findIdx? (fun c => TaskC.id c = taskId) with
    | some i => (i : Int)
    | none => -1
  let p := parent.removeChild taskId
  ((idx, p.1), p.2)

/-- `DeleteTaskCommand.undo`: if `deletedTask` is non-null and
`deletedIndex !== -1`, splice the node back in at `deletedIndex`. -/
def deleteUndo (st : Int × Option TaskC) (parent : TaskC) : TaskC :=
  match st.2 with
  | some r =>
    if st.1 = -1 then parent
    else
      match parent with
      | .task i ti b => .task i ti b
      | .group i ti b cs => .group i ti b (cs.insertIdx st.1.toNat r)
  | none => parent

/-- Set a node's `title` (the mutation of `EditTaskCommand`). -/
def setTitle (newTitle : String) : TaskC → TaskC
  | .task i _ b => .task i newTitle b
  | .group i _ b cs => .group i newTitle b cs

/-- Flip a node's `completed` flag (the shared mutation of
`ToggleStatusCommand.execute` and `.undo`). -/
def toggleCompleted : TaskC → TaskC
  | .task i ti b => .task i ti (!b)
  | .group i ti b cs => .group i ti (!b) cs

/-! ## `CommandManager`

The manager is parametric in the world `W` the commands mutate (the live
task trees); a `Cmd` carries the source's `description` and `timestamp`
fields plus its `execute`/`undo` bodies as functions on `W`.  Manager
operations act on a pair (manager state, world). -/

structure Cmd (W : Type) where
  description : String
  timestamp : String
  exec : W → W
  undo : W → W

structure SerializableCommandHistory where
  description : String
  timestamp : String
deriving DecidableEq, Repr

structure CMState (W : Type) where
  history : List (Cmd W)
  currentIndex : Int
  savedHistory : List SerializableCommandHistory

/-- `private readonly maxHistorySize: number = 20`. -/
def maxHistorySize : Nat := 20

/-- The freshly constructed manager: empty history, index −1, no imported log. -/
def initCM (W : Type) : CMState W :=
  { history := [], currentIndex := -1, savedHistory := [] }

def canUndo (s : CMState W) : Bool :=
  decide (0 ≤ s.currentIndex)

def canRedo (s : CMState W) : Bool :=
  decide (s.currentIndex < (s.history.length : Int) - 1)

/-- `CommandManager.execute`: run the command, truncate the redo branch,
append, advance the cursor, and evict the oldest entry on overflow. -/
def executeCM (c : Cmd W) (sw : CMState W × W) : CMState W × W :=
  let s := sw.1
  let w' := c.exec sw.2
  let h1 :=
    if s.currentIndex < (s.history.length : Int) - 1 then
      s.history.take (s.currentIndex + 1).toNat
    else s.history
  let h2 := h1 ++ [c]
  let i2 := s.currentIndex + 1
  if h2.length > maxHistorySize then
    ({ history := h2.drop 1, currentIndex := i2 - 1, savedHistory := s.savedHistory }, w')
  else
    ({ history := h2, currentIndex := i2, savedHistory := s.savedHistory }, w')

/-- `CommandManager.undo`: no-op returning false unless `canUndo()`;
otherwise run `history[currentIndex].undo()` and step the cursor back. -/
def undoCM (sw : CMState W × W) : Bool × (CMState W × W) :=
  let s := sw.1
  if canUndo s then
    let w' :=
      match s.history.get? s.currentIndex.toNat with
      | some c => c.undo sw.2
      | none => sw.2
    (true, ({ s with currentIndex := s.currentIndex - 1 }, w'))
  else (false, sw)

/-- `CommandManager.redo`: no-op returning false unless `canRedo()`;
otherwise advance the cursor and run `history[currentIndex].execute()`. -/
def redoCM (sw : CMState W × W) : Bool × (CMState W × W) :=
  let s := sw.1
  if canRedo s then
    let i' := s.currentIndex + 1
    let w' :=
      match s.history.get? i'.toNat with
      | some c => c.exec sw.2
      | none => sw.2
    (true, ({ s with currentIndex := i' }, w'))
  else (false, sw)

/-- `CommandManager.clear`: `history = []`, `currentIndex = -1`;
nothing else is touched. -/
def clearCM (sw : CMState W × W) : CMState W × W :=
  ({ sw.1 with history := [], currentIndex := -1 }, sw.2)

/-- JavaScript `array.slice(-count)` for a natural `count`: the whole
array when `count` is 0 (`-0 === 0`), otherwise the last `count`
elements (all of them when `count` exceeds the length). -/
def jsSliceNeg (l : List α) (count : Nat) : List α :=
  if count = 0 then l else l.drop (l.length - count)

/-- `CommandManager.getRecentHistory(count)` = `history.slice(-count)`. -/
def getRecentHistory (s : CMState W) (count : Nat) : List (Cmd W) :=
  jsSliceNeg s.history count

/-- `CommandManager.getSavedHistory()`. -/
def getSavedHistory (s : CMState W) : List SerializableCommandHistory :=
  s.savedHistory

/-- `CommandManager.importHistory(savedHistory)`. -/
def importHistoryCM (s : CMState W) (log : List SerializableCommandHistory) : CMState W :=
  { s with savedHistory := log }

structure DisplayEntry where
  description : String
  timestamp : String
  canUndo : Bool
  index : Int
deriving DecidableEq, Repr

def mapIdxFrom (n : Nat) (f : Nat → α → β) : List α → List β
  | [] => []
  | a :: as => f n a :: mapIdxFrom (n + 1) f as

/-- The `saved` array built inside `getFullHistoryForDisplay`: the
imported log, marked non-undoable, with negative indices. -/
def savedDisplay (s : CMState W) : List DisplayEntry :=
  mapIdxFrom 0
    (fun idx e => ⟨e.description, e.timestamp, false, (idx : Int) - (s.savedHistory.length : Int)⟩)
    s.savedHistory

/-- The `current` array built inside `getFullHistoryForDisplay`. -/
def currentDisplay (s : CMState W) : List DisplayEntry :=
  mapIdxFrom 0 (fun idx c => ⟨c.description, c.timestamp, true, (idx : Int)⟩) s.history

/-- `CommandManager.getFullHistoryForDisplay(count)`:
`[...saved, ...current].slice(-count)`. -/
def getFullHistoryForDisplay (s : CMState W) (count : Nat) : List DisplayEntry :=
  jsSliceNeg (savedDisplay s ++ currentDisplay s) count

/-- The manager's public operations, for reachability statements. -/
inductive MOp (W : Type) where
  | exec (c : Cmd W)
  | und
  | redo
  | clear

def stepCM (sw : CMState W × W) : MOp W → CMState W × W
  | .exec c => executeCM c sw
  | .und => (undoCM sw).2
  | .redo => (redoCM sw).2
  | .clear => clearCM sw

/-- Run a sequence of operations from the initial manager state. -/
def runCM (w0 : W) (ops : List (MOp W)) : CMState W × W :=
  ops.foldl stepCM (initCM W, w0)

/-! ## `TaskStore.getStatistics`

Only the fields the statistics read are modelled on a project.  JavaScript
numbers are modelled as exact rationals; `Math.round` is rounding half
toward positive infinity. -/

structure ProjectM where
  id : String
  name : String
  tasks : List TaskC

structure Statistics where
  totalTasks : Nat
  completedTasks : Nat
  percentage : Int
deriving DecidableEq, Repr

/-- JavaScript `Math.round`: nearest integer, half toward +∞. -/
def jsRound (q : ℚ) : Int :=
  ⌊q + 1 / 2⌋

/-- `TaskStore.getStatistics()`: accumulate `getTaskCount` and
`getCompletedCount` over every root task of every project (the two nested
`forEach` loops), then `percentage = total > 0 ? (completed/total)*100 : 0`
rounded. -/
def getStatistics (projects : List ProjectM) : Statistics :=
  let totalTasks : Nat :=
    projects.foldl (fun acc p => p.tasks.foldl (fun a t => a + t.getTaskCount) acc) 0
  let completedTasks : Nat :=
    projects.foldl (fun acc p => p.tasks.foldl (fun a t => a + t.getCompletedCount) acc) 0
  let percentage : ℚ :=
    if totalTasks > 0 then ((completedTasks : ℚ) / (totalTasks : ℚ)) * 100 else 0
  { totalTasks := totalTasks
    completedTasks := completedTasks
    percentage := jsRound percentage }

/-! ## Auxiliary definitions used by the statements -/

/-- The bookkeeping invariant of `CommandManager`. -/
def ManagerInv (s : CMState W) : Prop :=
  -1 ≤ s.currentIndex ∧ s.currentIndex < (s.history.length : Int) ∧
    s.history.length ≤ maxHistorySize

instance (s : CMState W) : Decidable (ManagerInv s) := by
  unfold ManagerInv
  infer_instance

/-- A portable record carries a present, non-empty children array. -/
def hasNonemptyChildren : PRec → Bool
  | .mk _ _ _ (some (_ :: _)) => true
  | .mk _ _ _ _ => false

/-- Total `getTaskCount` over every root task of every project. -/
def sumTaskCount (ps : List ProjectM) : Nat :=
  (ps.map (fun p => (p.tasks.map TaskC.getTaskCount).sum)).sum

/-- Total `getCompletedCount` over every root task of every project. -/
def sumCompletedCount (ps : List ProjectM) : Nat :=
  (ps.map (fun p => (p.tasks.map TaskC.getCompletedCount).sum)).sum

/-! # Theorems -/

/-! ## `CommandManager` bookkeeping -/

theorem managerInv_init : ManagerInv (initCM W) := by
  refine ⟨by norm_num [initCM], by norm_num [initCM], by norm_num [initCM, maxHistorySize]⟩

theorem managerInv_executeCM (s : CMState W) (w : W) (c : Cmd W) (h : ManagerInv s) :
    ManagerInv ((executeCM c (s, w)).1) := by
  obtain ⟨ha, hb, hc⟩ := h
  simp only [executeCM, ManagerInv, maxHistorySize] at *
  split_ifs with h1 h2 h3 <;>
    simp_all [List.length_take, List.length_append, List.length_drop] <;> omega

theorem managerInv_undoCM (sw : CMState W × W) (h : ManagerInv sw.1) :
    ManagerInv ((undoCM sw).2.1) := by
  obtain ⟨ha, hb, hc⟩ := h
  simp only [undoCM, canUndo, ManagerInv]
  split_ifs with h1 <;> simp_all
  all_goals omega

theorem managerInv_redoCM (sw : CMState W × W) (h : ManagerInv sw.1) :
    ManagerInv ((redoCM sw).2.1) := by
  obtain ⟨ha, hb, hc⟩ := h
  simp only [redoCM, canRedo, ManagerInv]
  split_ifs with h1 <;> simp_all
  all_goals omega

theorem managerInv_clearCM (sw : CMState W × W) (_h : ManagerInv sw.1) :
    ManagerInv ((clearCM sw).1) := by
  simp [clearCM, ManagerInv, maxHistorySize]

theorem managerInv_stepCM (sw : CMState W × W) (op : MOp W) (h : ManagerInv sw.1) :
    ManagerInv ((stepCM sw op).1) := by
  cases op with
  | exec c => exact managerInv_executeCM sw.1 sw.2 c h
  | und => exact managerInv_undoCM sw h
  | redo => exact managerInv_redoCM sw h
  | clear => exact managerInv_clearCM sw h

theorem managerInv_foldl (ops : List (MOp W)) :
    ∀ sw : CMState W × W, ManagerInv sw.1 → ManagerInv ((ops.foldl stepCM sw).1) := by
  induction ops with
  | nil => intro sw h; exact h
  | cons op ops ih =>
    intro sw h
    exact ih (stepCM sw op) (managerInv_stepCM sw op h)

theorem managerInv_runCM (w0 : W) (ops : List (MOp W)) : ManagerInv ((runCM w0 ops).1) :=
  managerInv_foldl ops (initCM W, w0) managerInv_init

/-- C3: every `CommandManager` state reachable from the initial state
(history empty, `currentIndex = -1`) by execute/undo/redo/clear calls
satisfies `-1 <= currentIndex < history.length`, and `canUndo()` holds
exactly when `currentIndex >= 0` while `canRedo()` holds exactly when
`currentIndex < history.length - 1`. -/
theorem c3_manager_invariant (W : Type) (w0 : W) (ops : List (MOp W)) :
    (-1 ≤ (runCM w0 ops).1.currentIndex ∧
      (runCM w0 ops).1.currentIndex < ((runCM w0 ops).1.history.length : Int)) ∧
    (canUndo (runCM w0 ops).1 = true ↔ 0 ≤ (runCM w0 ops).1.currentIndex) ∧
    (canRedo (runCM w0 ops).1 = true ↔
      (runCM w0 ops).1.currentIndex < ((runCM w0 ops).1.history.length : Int) - 1) := by
  obtain ⟨ha, hb, -⟩ := managerInv_runCM w0 ops
  exact ⟨⟨ha, hb⟩, by simp [canUndo], by simp [canRedo]⟩

theorem getElem?_take_concat (l : List α) (a : α) (k : Nat) (h : k ≤ l.length) :
    (l.take k ++ [a])[k]? = some a := by
  have hk := List.getElem?_concat_length (l.take k) a
  rwa [List.length_take, Nat.min_eq_left h] at hk

theorem executeCM_cursor (s : CMState W) (w : W) (c : Cmd W) (h : ManagerInv s) :
    (executeCM c (s, w)).1.history[(executeCM c (s, w)).1.currentIndex.toNat]? = some c := by
  obtain ⟨ha, hb, hc⟩ := h
  simp only [executeCM, maxHistorySize] at *
  by_cases h1 : s.currentIndex < (s.history.length : Int) - 1
  · rw [if_pos h1]
    have hle : (s.currentIndex + 1).toNat ≤ s.history.length := by omega
    have hno : ¬ ((s.history.take (s.currentIndex + 1).toNat ++ [c]).length > 20) := by
      simp only [List.length_append, List.length_take, List.length_cons, List.length_nil]
      omega
    rw [if_neg hno]
    dsimp only
    exact getElem?_take_concat s.history c _ hle
  · rw [if_neg h1]
    by_cases h2 : (s.history ++ [c]).length > 20
    · rw [if_pos h2]
      dsimp only
      rw [List.getElem?_drop]
      have he : 1 + (s.currentIndex + 1 - 1).toNat = s.history.length := by
        simp only [List.length_append, List.length_cons, List.length_nil] at h2
        omega
      rw [he]
      exact List.getElem?_concat_length _ _
    · rw [if_neg h2]
      dsimp only
      have he : (s.currentIndex + 1).toNat = s.history.length := by omega
      rw [he]
      exact List.getElem?_concat_length _ _

theorem executeCM_from_top (s : CMState W) (w : W) (c : Cmd W)
    (hidx : s.currentIndex = (s.history.length : Int) - 1) (hlen : s.history.length ≤ 20) :
    (executeCM c (s, w)).1.history.length = min (s.history.length + 1) 20 ∧
    (executeCM c (s, w)).1.currentIndex = (((executeCM c (s, w)).1.history.length : Int)) - 1 := by
  simp only [executeCM, maxHistorySize]
  have hnt : ¬ (s.currentIndex < (s.history.length : Int) - 1) := by omega
  rw [if_neg hnt]
  split_ifs with h2 <;>
    simp_all only [List.length_append, List.length_drop, List.length_cons, List.length_nil] <;>
    constructor <;> omega

theorem executeCM_foldl_from_top (cmds : List (Cmd W)) :
    ∀ (s : CMState W) (w : W),
      s.currentIndex = ((s.history.length : Int)) - 1 → s.history.length ≤ 20 →
      (cmds.foldl (fun acc c => executeCM c acc) (s, w)).1.history.length
          = min (s.history.length + cmds.length) 20 ∧
      (cmds.foldl (fun acc c => executeCM c acc) (s, w)).1.currentIndex
          = (((cmds.foldl (fun acc c => executeCM c acc) (s, w)).1.history.length : Int)) - 1 := by
  induction cmds with
  | nil =>
    intro s w h1 h2
    refine ⟨?_, h1⟩
    simp only [List.foldl_nil, List.length_nil]
    omega
  | cons c cmds ih =>
    intro s w h1 h2
    simp only [List.foldl_cons]
    obtain ⟨hl, hi⟩ := executeCM_from_top s w c h1 h2
    have hsplit : executeCM c (s, w) = ((executeCM c (s, w)).1, (executeCM c (s, w)).2) := rfl
    rw [hsplit]
    obtain ⟨hl', hi'⟩ :=
      ih (executeCM c (s, w)).1 (executeCM c (s, w)).2 hi (by rw [hl]; omega)
    refine ⟨?_, hi'⟩
    rw [hl', hl]
    simp only [List.length_cons]
    omega

/-- C4: `execute` keeps `history.length` within `maxHistorySize` and
leaves the cursor on the command just appended; when the history is full
the oldest entry (index 0) is evicted and the cursor, after the increment
and the compensating decrement, is numerically unchanged; executing
`maxHistorySize + k` commands from an empty manager leaves
`history.length = maxHistorySize` and `currentIndex = maxHistorySize - 1`. -/
theorem c4_history_bound (W : Type) :
    (∀ (s : CMState W) (w : W) (c : Cmd W), ManagerInv s →
      (executeCM c (s, w)).1.history.length ≤ maxHistorySize ∧
      (executeCM c (s, w)).1.history[(executeCM c (s, w)).1.currentIndex.toNat]? = some c ∧
      (s.history.length = maxHistorySize ∧ s.currentIndex = (maxHistorySize : Int) - 1 →
        (executeCM c (s, w)).1.history = (s.history ++ [c]).drop 1 ∧
        (executeCM c (s, w)).1.currentIndex = s.currentIndex)) ∧
    (∀ (w0 : W) (cmds : List (Cmd W)) (k : Nat), 0 < k → cmds.length = maxHistorySize + k →
      (cmds.foldl (fun acc c => executeCM c acc) (initCM W, w0)).1.history.length
          = maxHistorySize ∧
      (cmds.foldl (fun acc c => executeCM c acc) (initCM W, w0)).1.currentIndex
          = (maxHistorySize : Int) - 1) := by
  constructor
  · intro s w c h
    refine ⟨(managerInv_executeCM s w c h).2.2, executeCM_cursor s w c h, ?_⟩
    rintro ⟨hf, hi⟩
    simp only [executeCM, maxHistorySize] at *
    have hnt : ¬ (s.currentIndex < (s.history.length : Int) - 1) := by omega
    rw [if_neg hnt]
    have ho : (s.history ++ [c]).length > 20 := by
      simp only [List.length_append, List.length_cons, List.length_nil]
      omega
    rw [if_pos ho]
    dsimp only
    exact ⟨rfl, by omega⟩
  · intro w0 cmds k hk hlen
    obtain ⟨hl, hi⟩ :=
      executeCM_foldl_from_top cmds (initCM W) w0 (by simp [initCM]) (by simp [initCM])
    have hinit : (initCM W).history.length = 0 := rfl
    rw [hinit, hlen] at hl
    have hmin : min (0 + (maxHistorySize + k)) 20 = 20 := by
      simp only [maxHistorySize]
      omega
    rw [hmin] at hl
    refine ⟨by rw [hl, maxHistorySize], ?_⟩
    rw [hi, hl]
    norm_num [maxHistorySize]

/-- C4 witness at `W = Unit`: a full manager evicts on the 21st execute,
and 21 sequential executes from empty end at length 20, cursor 19. -/
theorem c4_history_bound_witness :
    ManagerInv (⟨List.replicate 20 ⟨"x", "", id, id⟩, 19, []⟩ : CMState Unit) ∧
    (0 < 1 ∧ (List.replicate 21 (⟨"x", "", id, id⟩ : Cmd Unit)).length = maxHistorySize + 1) ∧
    ((executeCM (⟨"y", "", id, id⟩ : Cmd Unit)
        ((⟨List.replicate 20 ⟨"x", "", id, id⟩, 19, []⟩ : CMState Unit),
          ())).1.history.length ≤ maxHistorySize) ∧
    ((List.replicate 21 (⟨"x", "", id, id⟩ : Cmd Unit)).foldl
        (fun acc c => executeCM c acc) (initCM Unit, ())).1.history.length = maxHistorySize := by
  have h1 : ManagerInv (⟨List.replicate 20 ⟨"x", "", id, id⟩, 19, []⟩ : CMState Unit) := by
    refine ⟨by norm_num, by norm_num, by norm_num [maxHistorySize]⟩
  refine ⟨h1, ⟨by norm_num, by simp [maxHistorySize]⟩, ?_, ?_⟩
  · exact ((c4_history_bound Unit).1 _ () _ h1).1
  · exact ((c4_history_bound Unit).2 () (List.replicate 21 ⟨"x", "", id, id⟩) 1 (by norm_num)
      (by simp [maxHistorySize])).1

/-- C5: executing while `currentIndex < history.length - 1` truncates the
history to indices `[0, currentIndex]` before appending; from history
`[A, B, C]` at index 2, two `undo()` calls followed by executing `D` give
history `[A, D]`, `currentIndex = 1`, `canRedo() = false`. -/
theorem c5_branch_discard :
    (∀ (W : Type) (s : CMState W) (w : W) (c : Cmd W), ManagerInv s →
      s.currentIndex < (s.history.length : Int) - 1 →
      (executeCM c (s, w)).1.history = s.history.take (s.currentIndex + 1).toNat ++ [c] ∧
      (executeCM c (s, w)).1.currentIndex = s.currentIndex + 1 ∧
      canRedo (executeCM c (s, w)).1 = false) ∧
    ((executeCM (⟨"D", "", id, id⟩ : Cmd Unit)
        (undoCM (undoCM
          ((⟨[⟨"A", "", id, id⟩, ⟨"B", "", id, id⟩, ⟨"C", "", id, id⟩], 2, []⟩ : CMState Unit),
            ())).2).2).1.history.map Cmd.description = ["A", "D"] ∧
      (executeCM (⟨"D", "", id, id⟩ : Cmd Unit)
        (undoCM (undoCM
          ((⟨[⟨"A", "", id, id⟩, ⟨"B", "", id, id⟩, ⟨"C", "", id, id⟩], 2, []⟩ : CMState Unit),
            ())).2).2).1.currentIndex = 1 ∧
      canRedo (executeCM (⟨"D", "", id, id⟩ : Cmd Unit)
        (undoCM (undoCM
          ((⟨[⟨"A", "", id, id⟩, ⟨"B", "", id, id⟩, ⟨"C", "", id, id⟩], 2, []⟩ : CMState Unit),
            ())).2).2).1 = false) := by
  constructor
  · intro W s w c h h1
    obtain ⟨ha, hb, hc⟩ := h
    simp only [executeCM, maxHistorySize, canRedo] at *
    rw [if_pos h1]
    have hno : ¬ ((s.history.take (s.currentIndex + 1).toNat ++ [c]).length > 20) := by
      simp only [List.length_append, List.length_take, List.length_cons, List.length_nil]
      omega
    rw [if_neg hno]
    dsimp only
    refine ⟨rfl, rfl, ?_⟩
    simp only [List.length_append, List.length_take, List.length_cons, List.length_nil,
      decide_eq_false_iff_not]
    omega
  · refine ⟨by decide, by decide, by decide⟩

/-- C5 witness: the general truncation clause applied at a concrete
two-element history with the cursor at 0. -/
theorem c5_branch_discard_witness :
    ManagerInv (⟨[⟨"A", "", id, id⟩, ⟨"B", "", id, id⟩], 0, []⟩ : CMState Unit) ∧
    ((⟨[⟨"A", "", id, id⟩, ⟨"B", "", id, id⟩], 0, []⟩ : CMState Unit).currentIndex <
      (((⟨[⟨"A", "", id, id⟩, ⟨"B", "", id, id⟩], 0, []⟩ : CMState Unit).history.length : Int)
        - 1)) ∧
    (executeCM (⟨"D", "", id, id⟩ : Cmd Unit)
      ((⟨[⟨"A", "", id, id⟩, ⟨"B", "", id, id⟩], 0, []⟩ : CMState Unit), ())).1.currentIndex
      = 0 + 1 := by
  have h1 : ManagerInv (⟨[⟨"A", "", id, id⟩, ⟨"B", "", id, id⟩], 0, []⟩ : CMState Unit) := by
    refine ⟨by norm_num, by norm_num, by norm_num [maxHistorySize]⟩
  refine ⟨h1, by norm_num, ?_⟩
  exact (c5_branch_discard.1 Unit _ () _ h1 (by norm_num)).2.1

/-- C6 counterexample: `getRecentHistory(0)` on a one-command history is
the whole history, not the empty list, because `slice(-0)` is `slice(0)`. -/
theorem c6_counterexample :
    (getRecentHistory ((⟨[⟨"c", "T", id, id⟩], 0, []⟩ : CMState Unit)) 0).isEmpty = false := by
  rfl

/-- C6 (amended): for `n ≥ 1` `getRecentHistory(n)` is exactly the last
`n` commands (all of them when `n` exceeds the length); for `n = 0` it is
the entire history, since JavaScript `slice(-0)` equals `slice(0)`; the
state is never mutated (the operation is a pure projection). -/
theorem c6_recent_history (W : Type) (s : CMState W) (n : Nat) :
    (getRecentHistory s n =
      if n = 0 then s.history else (s.history.reverse.take n).reverse) ∧
    (getRecentHistory s n).length = if n = 0 then s.history.length else min n s.history.length := by
  unfold getRecentHistory jsSliceNeg
  by_cases h : n = 0
  · rw [if_pos h, if_pos h, if_pos h]
    exact ⟨rfl, rfl⟩
  · rw [if_neg h, if_neg h, if_neg h]
    constructor
    · have hr : s.history.drop (s.history.length - n) = s.history.rtake n := rfl
      rw [hr, List.rtake_eq_reverse_take_reverse]
    · simp only [List.length_drop]
      omega

/-- C10 counterexample: with one imported entry, one live command and
display size 1, the non-undoable (imported) portion of
`getFullHistoryForDisplay` is empty before `clear()` but holds the
imported entry afterwards — the slice cutoff moves, so the claim's
"same entries before and after" fails. -/
theorem c10_counterexample :
    decide
      ((getFullHistoryForDisplay
          ((⟨[⟨"c", "T1", id, id⟩], 0, [⟨"e", "T0"⟩]⟩ : CMState Unit)) 1).filter
          (fun e => !e.canUndo) =
        (getFullHistoryForDisplay
          ((clearCM (((⟨[⟨"c", "T1", id, id⟩], 0, [⟨"e", "T0"⟩]⟩ : CMState Unit)), ())).1) 1).filter
          (fun e => !e.canUndo)) = false := by
  rfl

theorem savedDisplay_canUndo_false (log : List SerializableCommandHistory) (start : Nat)
    (len : Nat) :
    ∀ e ∈ mapIdxFrom start
      (fun idx e => (⟨e.description, e.timestamp, false, (idx : Int) - (len : Int)⟩ : DisplayEntry))
      log, e.canUndo = false := by
  induction log generalizing start with
  | nil => intro e he; cases he
  | cons x xs ih =>
    intro e he
    cases he with
    | head => rfl
    | tail _ h => exact ih (start + 1) e h

/-- C10 (amended): `clear()` resets `history` to `[]` and `currentIndex`
to `-1`, leaves the world (the task trees) and the imported
`savedHistory` log untouched — `getSavedHistory` and the mapped imported
display entries are unchanged — and afterwards `getFullHistoryForDisplay`
is exactly the slice of the imported log, every entry non-undoable.  (The
imported portion of the sliced display may show more entries than before
`clear()`, since the slice is no longer spent on live commands.) -/
theorem c10_clear_frame (W : Type) (s : CMState W) (w : W) :
    clearCM (s, w) = ((⟨[], -1, s.savedHistory⟩ : CMState W), w) ∧
    getSavedHistory ((clearCM (s, w)).1) = getSavedHistory s ∧
    savedDisplay ((clearCM (s, w)).1) = savedDisplay s ∧
    (∀ n : Nat, getFullHistoryForDisplay ((clearCM (s, w)).1) n = jsSliceNeg (savedDisplay s) n) ∧
    (∀ n : Nat,
      ((getFullHistoryForDisplay ((clearCM (s, w)).1) n).all fun e => !e.canUndo) = true) := by
  refine ⟨rfl, rfl, rfl, ?_, ?_⟩
  · intro n
    simp [getFullHistoryForDisplay, clearCM, currentDisplay, savedDisplay, mapIdxFrom]
  · intro n
    rw [List.all_eq_true]
    intro e he
    have hall := savedDisplay_canUndo_false s.savedHistory 0 s.savedHistory.length
    simp only [getFullHistoryForDisplay, clearCM, currentDisplay, savedDisplay,
      mapIdxFrom, List.append_nil, jsSliceNeg] at he
    rw [Bool.not_eq_true']
    split at he
    · exact hall e he
    · exact hall e (List.mem_of_mem_drop he)

/-! ## Composite-tree lemmas -/

theorem allNodes_task (i ti : String) (b : Bool) :
    TaskC.allNodes (.task i ti b) = [.task i ti b] := rfl

theorem allNodes_group (i ti : String) (b : Bool) (cs : List TaskC) :
    TaskC.allNodes (.group i ti b cs) = .group i ti b cs :: allNodesList cs := rfl

theorem allNodesList_nil : allNodesList [] = [] := rfl

theorem allNodesList_cons (c : TaskC) (cs : List TaskC) :
    allNodesList (c :: cs) = TaskC.allNodes c ++ allNodesList cs := rfl

theorem allIds_task (i ti : String) (b : Bool) : TaskC.allIds (.task i ti b) = [i] := rfl

theorem allIds_group (i ti : String) (b : Bool) (cs : List TaskC) :
    TaskC.allIds (.group i ti b cs) = i :: allIdsList cs := by
  simp [TaskC.allIds, allIdsList, allNodes_group, TaskC.id]

theorem allIdsList_nil : allIdsList [] = [] := rfl

theorem allIdsList_cons (c : TaskC) (cs : List TaskC) :
    allIdsList (c :: cs) = TaskC.allIds c ++ allIdsList cs := by
  simp [TaskC.allIds, allIdsList, allNodesList_cons]

theorem self_mem_allNodes (t : TaskC) : t ∈ TaskC.allNodes t := by
  cases t <;> simp [allNodes_task, allNodes_group]

theorem mem_allNodesList_of_mem {c : TaskC} : ∀ {cs : List TaskC}, c ∈ cs → c ∈ allNodesList cs
  | [], h => absurd h (List.not_mem_nil c)
  | d :: ds, h => by
    rw [allNodesList_cons]
    rcases List.mem_cons.mp h with rfl | h'
    · exact List.mem_append_left _ (self_mem_allNodes _)
    · exact List.mem_append_right _ (mem_allNodesList_of_mem h')

theorem id_mem_allIds (t : TaskC) : TaskC.id t ∈ TaskC.allIds t :=
  List.mem_map_of_mem TaskC.id (self_mem_allNodes t)

theorem mem_allIdsList_of_mem {c : TaskC} {cs : List TaskC} (h : c ∈ cs) :
    TaskC.id c ∈ allIdsList cs :=
  List.mem_map_of_mem TaskC.id (mem_allNodesList_of_mem h)

theorem mem_allIdsList_of_mem_allNodesList {n : TaskC} {cs : List TaskC}
    (h : n ∈ allNodesList cs) : TaskC.id n ∈ allIdsList cs :=
  List.mem_map_of_mem TaskC.id h

theorem removeFromList_none_eq (cs : List TaskC) (tid : String) :
    (removeFromList cs tid).1 = none → (removeFromList cs tid).2 = cs := by
  induction cs with
  | nil => intro _; rfl
  | cons c cs ih =>
    intro h
    by_cases hg : TaskC.isGroup c
    · cases hq : (TaskC.removeChild c tid).1 with
      | some r =>
        simp [removeFromList, hg, hq] at h
      | none =>
        simp [removeFromList, hg, hq] at h ⊢
        exact ih h
    · simp [removeFromList, hg] at h ⊢
      exact ih h

theorem removeChild_none_eq (t : TaskC) (tid : String) :
    (t.removeChild tid).1 = none → (t.removeChild tid).2 = t := by
  cases t with
  | task i ti b => intro _; rfl
  | group i ti b cs =>
    intro h
    cases hf : cs.findIdx? (fun c => TaskC.id c = tid) with
    | some idx =>
      exfalso
      obtain ⟨hlt, -, -⟩ := List.findIdx?_eq_some_iff_getElem.mp hf
      simp only [TaskC.removeChild, hf] at h
      rw [List.get?_eq_getElem?] at h
      simp only [List.getElem?_eq_none_iff] at h
      omega
    | none =>
      simp only [TaskC.removeChild, hf] at h ⊢
      rw [removeFromList_none_eq cs tid h]

mutual

theorem removeChild_none_iff : ∀ (t : TaskC) (tid : String),
    (t.removeChild tid).1 = none ↔ tid ∉ allIdsList t.childrenL
  | .task i ti b, tid => by
    simp [TaskC.removeChild, TaskC.childrenL, allIdsList_nil]
  | .group i ti b cs, tid => by
    simp only [TaskC.childrenL]
    cases hf : cs.findIdx? (fun c => TaskC.id c = tid) with
    | some idx =>
      obtain ⟨hlt, hp, -⟩ := List.findIdx?_eq_some_iff_getElem.mp hf
      simp only [TaskC.removeChild, hf]
      have hmem : tid ∈ allIdsList cs := by
        have hin : cs[idx] ∈ cs := List.getElem_mem hlt
        have := mem_allIdsList_of_mem hin
        simpa [decide_eq_true_eq.mp hp] using this
      constructor
      · intro hcon
        rw [List.get?_eq_getElem?, List.getElem?_eq_none_iff] at hcon
        omega
      · intro hno
        exact absurd hmem hno
    | none =>
      have hdir : ∀ c ∈ cs, TaskC.id c ≠ tid := by
        intro c hc
        have := List.findIdx?_eq_none_iff.mp hf c hc
        simpa using this
      simp only [TaskC.removeChild, hf]
      exact removeFromList_none_iff cs tid hdir

theorem removeFromList_none_iff : ∀ (cs : List TaskC) (tid : String),
    (∀ c ∈ cs, TaskC.id c ≠ tid) →
    ((removeFromList cs tid).1 = none ↔ tid ∉ allIdsList cs)
  | [], tid => by
    intro _
    simp [removeFromList, allIdsList_nil]
  | c :: cs, tid => by
    intro hdir
    have hdirc : TaskC.id c ≠ tid := hdir c (List.mem_cons_self c cs)
    have hdircs : ∀ d ∈ cs, TaskC.id d ≠ tid := fun d hd => hdir d (List.mem_cons_of_mem c hd)
    have ihcs := removeFromList_none_iff cs tid hdircs
    rw [allIdsList_cons]
    by_cases hg : TaskC.isGroup c
    · match c, hg with
      | .group ci cti cb ccs, _ =>
        have ihc := removeChild_none_iff (.group ci cti cb ccs) tid
        simp only [TaskC.childrenL] at ihc
        cases hq : (TaskC.removeChild (.group ci cti cb ccs) tid).1 with
        | some r =>
          have hnn : ¬ ((TaskC.removeChild (.group ci cti cb ccs) tid).1 = none) := by
            rw [hq]
            exact Option.some_ne_none r
          have hin : tid ∈ allIdsList ccs := by
            by_contra hno
            exact hnn (ihc.mpr hno)
          simp only [removeFromList, TaskC.isGroup, if_true, hq]
          constructor
          · intro hcon
            cases hcon
          · intro hno
            exfalso
            apply hno
            apply List.mem_append_left
            rw [allIds_group]
            exact List.mem_cons_of_mem _ hin
        | none =>
          have hnotc : tid ∉ TaskC.allIds (.group ci cti cb ccs) := by
            rw [allIds_group]
            intro hmem
            rcases List.mem_cons.mp hmem with h1 | h2
            · simp only [TaskC.id] at hdirc
              exact hdirc h1.symm
            · exact (ihc.mp hq) h2
          simp only [removeFromList, TaskC.isGroup, if_true, hq]
          rw [ihcs]
          constructor
          · intro hrest hmem
            rcases List.mem_append.mp hmem with h1 | h2
            · exact hnotc h1
            · exact hrest h2
          · intro hno hrest
            exact hno (List.mem_append_right _ hrest)
    · match c, hg with
      | .task ci cti cb, _ =>
        simp only [removeFromList, TaskC.isGroup, Bool.false_eq_true, if_false]
        rw [ihcs]
        constructor
        · intro hrest hmem
          rcases List.mem_append.mp hmem with h1 | h2
          · rw [allIds_task] at h1
            rcases List.mem_singleton.mp h1 with rfl
            exact hdirc rfl
          · exact hrest h2
        · intro hno hrest
          exact hno (List.mem_append_right _ hrest)

end

mutual

theorem removeChild_some_mem : ∀ (t : TaskC) (tid : String) (n : TaskC),
    (t.removeChild tid).1 = some n → TaskC.id n = tid ∧ n ∈ allNodesList t.childrenL
  | .task i ti b, tid, n => by
    intro h
    simp [TaskC.removeChild] at h
  | .group i ti b cs, tid, n => by
    intro h
    simp only [TaskC.childrenL]
    cases hf : cs.findIdx? (fun c => TaskC.id c = tid) with
    | some idx =>
      obtain ⟨hlt, hp, -⟩ := List.findIdx?_eq_some_iff_getElem.mp hf
      simp only [TaskC.removeChild, hf] at h
      rw [List.get?_eq_getElem?] at h
      obtain ⟨h', hn⟩ := List.getElem?_eq_some.mp h
      subst hn
      exact ⟨by simpa using hp, mem_allNodesList_of_mem (List.getElem_mem h')⟩
    | none =>
      simp only [TaskC.removeChild, hf] at h
      exact removeFromList_some_mem cs tid n h

theorem removeFromList_some_mem : ∀ (cs : List TaskC) (tid : String) (n : TaskC),
    (removeFromList cs tid).1 = some n → TaskC.id n = tid ∧ n ∈ allNodesList cs
  | [], tid, n => by
    intro h
    simp [removeFromList] at h
  | c :: cs, tid, n => by
    intro h
    rw [allNodesList_cons]
    by_cases hg : TaskC.isGroup c
    · match c, hg with
      | .group ci cti cb ccs, _ =>
        cases hq : (TaskC.removeChild (.group ci cti cb ccs) tid).1 with
        | some r =>
          simp only [removeFromList, TaskC.isGroup, if_true, hq] at h
          obtain rfl : n = r := (Option.some.inj h).symm
          obtain ⟨hid, hmem⟩ := removeChild_some_mem (.group ci cti cb ccs) tid n hq
          simp only [TaskC.childrenL] at hmem
          refine ⟨hid, List.mem_append_left _ ?_⟩
          rw [allNodes_group]
          exact List.mem_cons_of_mem _ hmem
        | none =>
          simp only [removeFromList, TaskC.isGroup, if_true, hq] at h
          obtain ⟨hid, hmem⟩ := removeFromList_some_mem cs tid n h
          exact ⟨hid, List.mem_append_right _ hmem⟩
    · match c, hg with
      | .task ci cti cb, _ =>
        simp only [removeFromList, TaskC.isGroup, Bool.false_eq_true, if_false] at h
        obtain ⟨hid, hmem⟩ := removeFromList_some_mem cs tid n h
        exact ⟨hid, List.mem_append_right _ hmem⟩

end

theorem one_le_getTaskCount (t : TaskC) : 1 ≤ TaskC.getTaskCount t := by
  cases t with
  | task i ti b => exact le_refl 1
  | group i ti b cs => simp [TaskC.getTaskCount]

theorem getTaskCountList_eraseIdx : ∀ (cs : List TaskC) (idx : Nat) (h : idx < cs.length),
    getTaskCountList (cs.eraseIdx idx) + TaskC.getTaskCount cs[idx] = getTaskCountList cs
  | c :: cs, 0, _ => by
    simp only [List.eraseIdx, getTaskCountList, List.getElem_cons_zero]
    omega
  | c :: cs, idx + 1, h => by
    simp only [List.eraseIdx, getTaskCountList, List.getElem_cons_succ]
    have := getTaskCountList_eraseIdx cs idx (by simpa using h)
    omega

mutual

theorem removeChild_some_count : ∀ (t : TaskC) (tid : String) (n : TaskC),
    (t.removeChild tid).1 = some n →
    TaskC.getTaskCount ((t.removeChild tid).2) + TaskC.getTaskCount n = TaskC.getTaskCount t
  | .task i ti b, tid, n => by
    intro h
    simp [TaskC.removeChild] at h
  | .group i ti b cs, tid, n => by
    intro h
    cases hf : cs.findIdx? (fun c => TaskC.id c = tid) with
    | some idx =>
      obtain ⟨hlt, -, -⟩ := List.findIdx?_eq_some_iff_getElem.mp hf
      simp only [TaskC.removeChild, hf] at h ⊢
      rw [List.get?_eq_getElem?] at h
      obtain ⟨h', hn⟩ := List.getElem?_eq_some.mp h
      subst hn
      simp only [TaskC.getTaskCount]
      have := getTaskCountList_eraseIdx cs idx hlt
      omega
    | none =>
      simp only [TaskC.removeChild, hf] at h ⊢
      have := removeFromList_some_count cs tid n h
      simp only [TaskC.getTaskCount]
      omega

theorem removeFromList_some_count : ∀ (cs : List TaskC) (tid : String) (n : TaskC),
    (removeFromList cs tid).1 = some n →
    getTaskCountList ((removeFromList cs tid).2) + TaskC.getTaskCount n = getTaskCountList cs
  | [], tid, n => by
    intro h
    simp [removeFromList] at h
  | c :: cs, tid, n => by
    intro h
    by_cases hg : TaskC.isGroup c
    · match c, hg with
      | .group ci cti cb ccs, _ =>
        cases hq : (TaskC.removeChild (.group ci cti cb ccs) tid).1 with
        | some r =>
          simp only [removeFromList, TaskC.isGroup, if_true, hq] at h ⊢
          obtain rfl : n = r := (Option.some.inj h).symm
          have := removeChild_some_count (.group ci cti cb ccs) tid n hq
          simp only [getTaskCountList]
          omega
        | none =>
          simp only [removeFromList, TaskC.isGroup, if_true, hq] at h ⊢
          have := removeFromList_some_count cs tid n h
          simp only [getTaskCountList]
          omega
    · match c, hg with
      | .task ci cti cb, _ =>
        simp only [removeFromList, TaskC.isGroup, Bool.false_eq_true, if_false] at h ⊢
        have := removeFromList_some_count cs tid n h
        simp only [getTaskCountList]
        omega

end

/-- C1 counterexample: in the tree `p → g → x`, the id `"x"` is not a
direct child of `p` (`findIndex` over `p`'s children misses it), yet
`DeleteTaskCommand.execute` is not a no-op: `removeChild` recurses into
the subtree and removes `x`, changing `p`'s descendant group `g`. -/
theorem c1_counterexample :
    ((TaskC.group "p" "P" false
        [.group "g" "G" false [.task "x" "X" false]]).childrenL.findIdx?
      (fun c => TaskC.id c = "x") = none) ∧
    decide ((deleteExecute "x"
        (.group "p" "P" false [.group "g" "G" false [.task "x" "X" false]])).2 =
      TaskC.group "p" "P" false [.group "g" "G" false [.task "x" "X" false]]) = false := by
  constructor
  · rfl
  · rfl

/-- C1 (amended): `DeleteTaskCommand.execute` on a parent group is a
silent no-op exactly when the id occurs nowhere in the parent's subtree:
`removeChild` searches the direct children first but then recurses into
every descendant group, so an id that is only a deeper descendant is
still removed (while `deletedIndex` stays −1), changing the subtree. -/
theorem c1_delete_scope (i ti : String) (b : Bool) (cs : List TaskC) (tid : String) :
    ((deleteExecute tid (.group i ti b cs)).2 = TaskC.group i ti b cs ↔
      tid ∉ allIdsList cs) ∧
    ((deleteExecute tid (.group i ti b cs)).1.2 = none ↔ tid ∉ allIdsList cs) := by
  have hiff := removeChild_none_iff (.group i ti b cs) tid
  simp only [TaskC.childrenL] at hiff
  have h2 : (deleteExecute tid (.group i ti b cs)).1.2 =
      ((TaskC.group i ti b cs).removeChild tid).1 := rfl
  have h3 : (deleteExecute tid (.group i ti b cs)).2 =
      ((TaskC.group i ti b cs).removeChild tid).2 := rfl
  refine ⟨?_, by rw [h2]; exact hiff⟩
  rw [h3]
  constructor
  · intro heq
    rw [← hiff]
    cases hn : ((TaskC.group i ti b cs).removeChild tid).1 with
    | none => rfl
    | some n =>
      exfalso
      have hcount := removeChild_some_count (.group i ti b cs) tid n hn
      rw [heq] at hcount
      have := one_le_getTaskCount n
      omega
  · intro hno
    exact removeChild_none_eq _ _ (hiff.mpr hno)

theorem findIdx?_append_singleton {α : Type} {p : α → Bool} :
    ∀ (l : List α) (x : α), (∀ c ∈ l, p c = false) → p x = true →
      (l ++ [x]).findIdx? p = some l.length
  | [], x, _, hx => by simp [List.findIdx?_cons, hx]
  | c :: l, x, hl, hx => by
    have hc : p c = false := hl c (List.mem_cons_self c l)
    have ih := findIdx?_append_singleton l x (fun d hd => hl d (List.mem_cons_of_mem c hd)) hx
    simp [List.findIdx?_cons, hc, ih]

theorem eraseIdx_append_length {α : Type} : ∀ (l : List α) (x : α),
    (l ++ [x]).eraseIdx l.length = l
  | [], x => rfl
  | c :: l, x => by
    simp only [List.cons_append, List.length_cons, List.eraseIdx_cons_succ]
    rw [eraseIdx_append_length l x]

theorem insertIdx_eraseIdx_self {α : Type} : ∀ (l : List α) (i : Nat) (h : i < l.length),
    (l.eraseIdx i).insertIdx i l[i] = l
  | a :: l, 0, _ => rfl
  | a :: l, i + 1, h => by
    simp only [List.eraseIdx_cons_succ, List.insertIdx_succ_cons, List.getElem_cons_succ]
    rw [insertIdx_eraseIdx_self l i (by simpa using h)]

/-- C2 counterexample: `CreateTaskCommand` with a task whose id duplicates
an existing direct child: `execute(); undo()` removes the original child
(the first `findIndex` match), not the created one, so the tree is not
restored. -/
theorem c2_counterexample :
    decide (createUndo (.task "dup" "new" false)
        (createExecute (.task "dup" "new" false)
          (.group "p" "P" false [.task "dup" "old" false])) =
      TaskC.group "p" "P" false [.task "dup" "old" false]) = false := by
  rfl

/-- C2 (amended): `execute(); undo()` restores the pre-execute state for
`EditTaskCommand` and `ToggleStatusCommand` unconditionally; for
`CreateTaskCommand` whenever no direct child of the parent already has
the created task's id; and for `DeleteTaskCommand` whenever the target id
is a direct child of the parent (restored at its captured index) or
absent from the parent's whole subtree (both calls are no-ops). -/
theorem c2_round_trip :
    (∀ (i ti : String) (b : Bool) (cs : List TaskC) (x : TaskC),
      (∀ c ∈ cs, TaskC.id c ≠ TaskC.id x) →
      createUndo x (createExecute x (.group i ti b cs)) = TaskC.group i ti b cs) ∧
    (∀ (i ti : String) (b : Bool) (cs : List TaskC) (tid : String),
      (cs.findIdx? (fun c => TaskC.id c = tid)).isSome = true →
      deleteUndo (deleteExecute tid (.group i ti b cs)).1
          (deleteExecute tid (.group i ti b cs)).2 = TaskC.group i ti b cs) ∧
    (∀ (i ti : String) (b : Bool) (cs : List TaskC) (tid : String),
      tid ∉ allIdsList cs →
      deleteUndo (deleteExecute tid (.group i ti b cs)).1
          (deleteExecute tid (.group i ti b cs)).2 = TaskC.group i ti b cs) ∧
    (∀ (newTitle : String) (node : TaskC),
      setTitle (TaskC.title node) (setTitle newTitle node) = node) ∧
    (∀ node : TaskC, toggleCompleted (toggleCompleted node) = node) := by
  refine ⟨?_, ?_, ?_, ?_, ?_⟩
  · intro i ti b cs x hx
    have hstep : createExecute x (.group i ti b cs) = TaskC.group i ti b (cs ++ [x]) := rfl
    rw [hstep]
    have hf : (cs ++ [x]).findIdx? (fun c => TaskC.id c = TaskC.id x) = some cs.length :=
      findIdx?_append_singleton cs x (fun c hc => by simp [hx c hc]) (by simp)
    simp only [createUndo, TaskC.removeChild, hf]
    rw [eraseIdx_append_length]
  · intro i ti b cs tid hs
    obtain ⟨idx, hf⟩ := Option.isSome_iff_exists.mp hs
    obtain ⟨hlt, -, -⟩ := List.findIdx?_eq_some_iff_getElem.mp hf
    have hexec : deleteExecute tid (.group i ti b cs) =
        (((idx : Int), some cs[idx]), .group i ti b (cs.eraseIdx idx)) := by
      simp only [deleteExecute, TaskC.childrenL, TaskC.removeChild, hf]
      rw [List.get?_eq_getElem?, List.getElem?_eq_getElem hlt]
    rw [hexec]
    simp only [deleteUndo]
    have hne : ¬ ((idx : Int) = -1) := by omega
    rw [if_neg hne]
    have htn : ((idx : Int)).toNat = idx := Int.toNat_natCast idx
    rw [htn, insertIdx_eraseIdx_self cs idx hlt]
  · intro i ti b cs tid hno
    have hiff := removeChild_none_iff (.group i ti b cs) tid
    simp only [TaskC.childrenL] at hiff
    have hn : ((TaskC.group i ti b cs).removeChild tid).1 = none := hiff.mpr hno
    have heq : ((TaskC.group i ti b cs).removeChild tid).2 = TaskC.group i ti b cs :=
      removeChild_none_eq _ _ hn
    have hexec : deleteExecute tid (.group i ti b cs) =
        ((match (TaskC.group i ti b cs).childrenL.findIdx? (fun c => TaskC.id c = tid) with
          | some i => (i : Int)
          | none => -1, ((TaskC.group i ti b cs).removeChild tid).1),
          ((TaskC.group i ti b cs).removeChild tid).2) := rfl
    rw [hexec, hn, heq]
    rfl
  · intro newTitle node
    cases node <;> rfl
  · intro node
    cases node <;> simp [toggleCompleted]

/-- C2 witness: the four round trips at concrete trees, with the side
conditions discharged by computation. -/
theorem c2_round_trip_witness :
    createUndo (.task "a" "A" false)
        (createExecute (.task "a" "A" false) (.group "p" "P" false [])) =
      TaskC.group "p" "P" false [] ∧
    deleteUndo (deleteExecute "d" (.group "p" "P" false [.task "d" "D" false])).1
        (deleteExecute "d" (.group "p" "P" false [.task "d" "D" false])).2 =
      TaskC.group "p" "P" false [.task "d" "D" false] ∧
    deleteUndo (deleteExecute "zz" (.group "p" "P" false [.task "d" "D" false])).1
        (deleteExecute "zz" (.group "p" "P" false [.task "d" "D" false])).2 =
      TaskC.group "p" "P" false [.task "d" "D" false] ∧
    setTitle (TaskC.title (.task "e" "E" false)) (setTitle "N" (.task "e" "E" false)) =
      TaskC.task "e" "E" false ∧
    toggleCompleted (toggleCompleted (.task "f" "F" true)) = TaskC.task "f" "F" true := by
  refine ⟨?_, ?_, ?_, ?_, ?_⟩
  · exact c2_round_trip.1 "p" "P" false [] (.task "a" "A" false) (by simp)
  · exact c2_round_trip.2.1 "p" "P" false [.task "d" "D" false] "d" (by decide)
  · exact c2_round_trip.2.2.1 "p" "P" false [.task "d" "D" false] "zz" (by decide)
  · exact c2_round_trip.2.2.2.1 "N" (.task "e" "E" false)
  · exact c2_round_trip.2.2.2.2 (.task "f" "F" true)

mutual

theorem findTask_none_iff : ∀ (i ti : String) (b : Bool) (cs : List TaskC) (tid : String),
    TaskC.findTask (.group i ti b cs) tid = none ↔ tid ∉ TaskC.allIds (.group i ti b cs)
  | i, ti, b, cs, tid => by
    rw [allIds_group]
    by_cases hi : i = tid
    · subst hi
      simp [TaskC.findTask]
    · simp only [TaskC.findTask, if_neg hi]
      rw [findTaskList_none_iff cs tid]
      constructor
      · intro hno hmem
        rcases List.mem_cons.mp hmem with h1 | h2
        · exact hi h1.symm
        · exact hno h2
      · intro hno hmem
        exact hno (List.mem_cons_of_mem _ hmem)

theorem findTaskList_none_iff : ∀ (cs : List TaskC) (tid : String),
    findTaskList cs tid = none ↔ tid ∉ allIdsList cs
  | [], tid => by simp [findTaskList, allIdsList_nil]
  | c :: cs, tid => by
    rw [allIdsList_cons]
    by_cases hid : TaskC.id c = tid
    · simp only [findTaskList, if_pos hid]
      have hmem : tid ∈ TaskC.allIds c := by
        rw [← hid]
        exact id_mem_allIds c
      constructor
      · intro hcon
        cases hcon
      · intro hno
        exact absurd (List.mem_append_left _ hmem) hno
    · simp only [findTaskList, if_neg hid]
      by_cases hg : TaskC.isGroup c
      · match c, hg, hid with
        | .group ci cti cb ccs, _, hid =>
          have ihc := findTask_none_iff ci cti cb ccs tid
          cases hq : TaskC.findTask (.group ci cti cb ccs) tid with
          | some r =>
            have hin : tid ∈ TaskC.allIds (.group ci cti cb ccs) := by
              by_contra hno
              have h0 := ihc.mpr hno
              rw [hq] at h0
              exact Option.noConfusion h0
            simp only [TaskC.isGroup, if_true, hq]
            constructor
            · intro hcon
              cases hcon
            · intro hno
              exact absurd (List.mem_append_left _ hin) hno
          | none =>
            have hnotc : tid ∉ TaskC.allIds (.group ci cti cb ccs) := ihc.mp hq
            simp only [TaskC.isGroup, if_true, hq]
            rw [findTaskList_none_iff cs tid]
            constructor
            · intro hrest hmem
              rcases List.mem_append.mp hmem with h1 | h2
              · exact hnotc h1
              · exact hrest h2
            · intro hno hrest
              exact hno (List.mem_append_right _ hrest)
      · match c, hg, hid with
        | .task ci cti cb, _, hid =>
          simp only [TaskC.isGroup, Bool.false_eq_true, if_false]
          rw [findTaskList_none_iff cs tid]
          constructor
          · intro hrest hmem
            rcases List.mem_append.mp hmem with h1 | h2
            · rw [allIds_task] at h1
              rcases List.mem_singleton.mp h1 with rfl
              exact hid rfl
            · exact hrest h2
          · intro hno hrest
            exact hno (List.mem_append_right _ hrest)

end

mutual

theorem findTask_some_mem : ∀ (i ti : String) (b : Bool) (cs : List TaskC) (tid : String)
    (n : TaskC), TaskC.findTask (.group i ti b cs) tid = some n →
      TaskC.id n = tid ∧ n ∈ TaskC.allNodes (.group i ti b cs)
  | i, ti, b, cs, tid, n => by
    intro h
    rw [allNodes_group]
    by_cases hi : i = tid
    · subst hi
      simp only [TaskC.findTask, if_pos rfl] at h
      obtain rfl : TaskC.group i ti b cs = n := Option.some.inj h
      exact ⟨rfl, List.mem_cons_self _ _⟩
    · simp only [TaskC.findTask, if_neg hi] at h
      obtain ⟨hid, hmem⟩ := findTaskList_some_mem cs tid n h
      exact ⟨hid, List.mem_cons_of_mem _ hmem⟩

theorem findTaskList_some_mem : ∀ (cs : List TaskC) (tid : String) (n : TaskC),
    findTaskList cs tid = some n → TaskC.id n = tid ∧ n ∈ allNodesList cs
  | [], tid, n => by
    intro h
    simp [findTaskList] at h
  | c :: cs, tid, n => by
    intro h
    rw [allNodesList_cons]
    by_cases hid : TaskC.id c = tid
    · simp only [findTaskList, if_pos hid] at h
      obtain rfl : c = n := Option.some.inj h
      exact ⟨hid, List.mem_append_left _ (self_mem_allNodes c)⟩
    · simp only [findTaskList, if_neg hid] at h
      by_cases hg : TaskC.isGroup c
      · match c, hg, hid, h with
        | .group ci cti cb ccs, _, hid, h =>
          cases hq : TaskC.findTask (.group ci cti cb ccs) tid with
          | some r =>
            simp only [TaskC.isGroup, if_true, hq] at h
            obtain rfl : n = r := (Option.some.inj h).symm
            obtain ⟨hidn, hmem⟩ := findTask_some_mem ci cti cb ccs tid n hq
            exact ⟨hidn, List.mem_append_left _ hmem⟩
          | none =>
            simp only [TaskC.isGroup, if_true, hq] at h
            obtain ⟨hidn, hmem⟩ := findTaskList_some_mem cs tid n h
            exact ⟨hidn, List.mem_append_right _ hmem⟩
      · match c, hg, hid, h with
        | .task ci cti cb, _, hid, h =>
          simp only [TaskC.isGroup, Bool.false_eq_true, if_false] at h
          obtain ⟨hidn, hmem⟩ := findTaskList_some_mem cs tid n h
          exact ⟨hidn, List.mem_append_right _ hmem⟩

end

/-- C7 counterexample: with the duplicate id `"z"` at two depths,
`findTask` returns the deep node (it recurses into the first group child
before looking at later siblings) while `removeChild` removes the shallow
one (it scans all direct children first) — different nodes. -/
theorem c7_counterexample :
    TaskC.findTask
        (.group "r" "R" false
          [.group "g" "G" false [.task "z" "deep" false], .task "z" "shallow" false]) "z" =
      some (.task "z" "deep" false) ∧
    ((TaskC.group "r" "R" false
        [.group "g" "G" false [.task "z" "deep" false],
          .task "z" "shallow" false]).removeChild "z").1 =
      some (.task "z" "shallow" false) ∧
    decide ((some (TaskC.task "z" "deep" false) : Option TaskC) =
      some (.task "z" "shallow" false)) = false := by
  exact ⟨by decide, by decide, by decide⟩

/-- C7 (amended): `findTask` additionally matches the root; for an id
distinct from the root's and a tree with no duplicate ids, the node
returned by `findTask` is exactly the node `removeChild` would remove
(and both miss for the same ids).  With duplicate ids the two search
orders can return different nodes: `findTask` interleaves the recursion
with the sibling scan, `removeChild` scans all direct children first. -/
theorem c7_find_remove_agree (i ti : String) (b : Bool) (cs : List TaskC) (tid : String)
    (hne : tid ≠ i) (hnd : (TaskC.allIds (.group i ti b cs)).Nodup) :
    TaskC.findTask (.group i ti b cs) tid = ((TaskC.group i ti b cs).removeChild tid).1 := by
  rw [allIds_group] at hnd
  have hnd2 : (allIdsList cs).Nodup := (List.nodup_cons.mp hnd).2
  have hrciff := removeChild_none_iff (.group i ti b cs) tid
  simp only [TaskC.childrenL] at hrciff
  cases hft : TaskC.findTask (.group i ti b cs) tid with
  | none =>
    have hnomem := (findTask_none_iff i ti b cs tid).mp hft
    rw [allIds_group] at hnomem
    have hno : tid ∉ allIdsList cs := fun hm => hnomem (List.mem_cons_of_mem _ hm)
    exact (hrciff.mpr hno).symm
  | some n =>
    obtain ⟨hidn, hmemn⟩ := findTask_some_mem i ti b cs tid n hft
    rw [allNodes_group] at hmemn
    have hmemn' : n ∈ allNodesList cs := by
      rcases List.mem_cons.mp hmemn with rfl | h2
      · exact absurd hidn.symm hne
      · exact h2
    have htid : tid ∈ allIdsList cs := by
      rw [← hidn]
      exact mem_allIdsList_of_mem_allNodesList hmemn'
    cases hrc : ((TaskC.group i ti b cs).removeChild tid).1 with
    | none => exact absurd (hrciff.mp hrc) (by simpa using htid)
    | some m =>
      obtain ⟨hidm, hmemm⟩ := removeChild_some_mem (.group i ti b cs) tid m hrc
      simp only [TaskC.childrenL] at hmemm
      have hnm : n = m :=
        List.inj_on_of_nodup_map hnd2 hmemn' hmemm (hidn.trans hidm.symm)
      rw [hnm]

/-- C7 witness: the agreement applied at a concrete duplicate-free tree. -/
theorem c7_find_remove_agree_witness :
    ("a" : String) ≠ "r" ∧
    (TaskC.allIds (.group "r" "R" false [.task "a" "A" false])).Nodup ∧
    TaskC.findTask (.group "r" "R" false [.task "a" "A" false]) "a" =
      ((TaskC.group "r" "R" false [.task "a" "A" false]).removeChild "a").1 := by
  refine ⟨by decide, by decide, ?_⟩
  exact c7_find_remove_agree "r" "R" false [.task "a" "A" false] "a" (by decide) (by decide)

mutual

theorem childFromJSON_toJSON_iff : ∀ c : TaskC,
    (childFromJSON (TaskC.toJSON c) = c) ↔ goodSub c = true
  | .task i ti b => by
    simp [TaskC.toJSON, childFromJSON, goodSub]
  | .group i ti b [] => by
    simp [TaskC.toJSON, toJSONList, childFromJSON, goodSub]
  | .group i ti b (x :: xs) => by
    have hl := fromJSONList_toJSONList_iff (x :: xs)
    simp only [TaskC.toJSON, toJSONList, childFromJSON, goodSub]
    rw [← hl]
    simp [toJSONList]

theorem fromJSONList_toJSONList_iff : ∀ cs : List TaskC,
    (fromJSONList (toJSONList cs) = cs) ↔ goodList cs = true
  | [] => by simp [toJSONList, fromJSONList, goodList]
  | c :: cs => by
    have hc := childFromJSON_toJSON_iff c
    have hcs := fromJSONList_toJSONList_iff cs
    simp only [toJSONList, fromJSONList, goodList, List.cons.injEq, Bool.and_eq_true]
    rw [hc, hcs]

end

/-- C8: deserialization classifies a child record as a group exactly when
its `children` array is present and non-empty; a serialized empty group
comes back as a leaf `Task`; and `fromJSON (toJSON t)` equals the original
group tree exactly when every group strictly below the root has at least
one child. -/
theorem c8_from_to_round_trip :
    (∀ (i ti : String) (b : Bool) (cs : List TaskC),
      fromJSON (TaskC.toJSON (.group i ti b cs)) = TaskC.group i ti b cs ↔
        goodList cs = true) ∧
    (∀ j : PRec, TaskC.isGroup (childFromJSON j) = hasNonemptyChildren j) ∧
    (∀ (i ti : String) (b : Bool),
      childFromJSON (TaskC.toJSON (.group i ti b [])) = TaskC.task i ti b) := by
  refine ⟨?_, ?_, ?_⟩
  · intro i ti b cs
    have h1 : fromJSON (TaskC.toJSON (.group i ti b cs)) =
        TaskC.group i ti b (fromJSONList (toJSONList cs)) := rfl
    rw [h1]
    rw [show (TaskC.group i ti b (fromJSONList (toJSONList cs)) = TaskC.group i ti b cs) ↔
      fromJSONList (toJSONList cs) = cs from by simp]
    exact fromJSONList_toJSONList_iff cs
  · intro j
    match j with
    | .mk i ti b none => rfl
    | .mk i ti b (some []) => rfl
    | .mk i ti b (some (x :: xs)) => rfl
  · intro i ti b
    rfl

theorem foldl_add_map_sum {α : Type} (f : α → Nat) : ∀ (l : List α) (acc : Nat),
    l.foldl (fun a t => a + f t) acc = acc + (l.map f).sum
  | [], acc => by simp
  | x :: l, acc => by
    simp only [List.foldl_cons, List.map_cons, List.sum_cons]
    rw [foldl_add_map_sum f l (acc + f x)]
    omega

theorem foldl_projects_sum (f : TaskC → Nat) : ∀ (ps : List ProjectM) (acc : Nat),
    ps.foldl (fun acc p => p.tasks.foldl (fun a t => a + f t) acc) acc
      = acc + (ps.map (fun p => (p.tasks.map f).sum)).sum
  | [], acc => by simp
  | p :: ps, acc => by
    simp only [List.foldl_cons, List.map_cons, List.sum_cons]
    rw [foldl_projects_sum f ps _, foldl_add_map_sum f p.tasks acc]
    omega

/-- C9: `getStatistics` totals `getTaskCount`/`getCompletedCount` over
every root task of every project; the percentage is
`round(100 * completed / total)` (here `(completed/total)*100` commuted in
exact rational arithmetic) and is 0 — a plain number, with the division
guarded — whenever the total is 0, in particular on the empty
collection. -/
theorem c9_statistics (ps : List ProjectM) :
    (getStatistics ps).totalTasks = sumTaskCount ps ∧
    (getStatistics ps).completedTasks = sumCompletedCount ps ∧
    (getStatistics ps).percentage =
      (if sumTaskCount ps = 0 then 0
       else jsRound (100 * (sumCompletedCount ps : ℚ) / (sumTaskCount ps : ℚ))) ∧
    (getStatistics []).percentage = 0 ∧ (getStatistics []).totalTasks = 0 := by
  have ht : (getStatistics ps).totalTasks = sumTaskCount ps := by
    simp only [getStatistics]
    rw [foldl_projects_sum TaskC.getTaskCount ps 0]
    simp [sumTaskCount]
  have hcm : (getStatistics ps).completedTasks = sumCompletedCount ps := by
    simp only [getStatistics]
    rw [foldl_projects_sum TaskC.getCompletedCount ps 0]
    simp [sumCompletedCount]
  refine ⟨ht, hcm, ?_, ?_, ?_⟩
  · simp only [getStatistics]
    rw [foldl_projects_sum TaskC.getTaskCount ps 0, foldl_projects_sum TaskC.getCompletedCount ps 0]
    simp only [Nat.zero_add]
    by_cases h0 : sumTaskCount ps = 0
    · rw [if_pos h0]
      have hz : ¬ ((ps.map (fun p => (p.tasks.map TaskC.getTaskCount).sum)).sum > 0) := by
        simp only [sumTaskCount] at h0
        omega
      rw [if_neg hz]
      norm_num [jsRound]
    · rw [if_neg h0]
      have hp : (ps.map (fun p => (p.tasks.map TaskC.getTaskCount).sum)).sum > 0 := by
        simp only [sumTaskCount] at h0
        omega
      rw [if_pos hp]
      congr 1
      simp only [sumTaskCount, sumCompletedCount]
      ring
  · norm_num [getStatistics, jsRound]
  · rfl

end TodoPatterns
